import Mathlib

/-!
Verification of the SRT subtitle module (`src/substudy/src/srt.rs`).

The Rust code is shallowly embedded here:
* `f32` times are embedded by their exact rational values, and every `f32`
  operation the parser performs (the `usize as f32` casts, the products with
  `3600.0` and `60.0`, the sums, `f32::from_str`, the `end += 0.001` fix) is
  a correctly rounded IEEE-754 `binary32` operation: the model applies `rnd`,
  a computable round-to-nearest-ties-to-even at 24 significand bits, to the
  exact result of each step.  So `05:00:00,001` and `05:00:00,002` both parse
  to `9216001/512` (= 18000.001953125), and `end += 0.001` is a no-op at
  `34200` s — the model reproduces the float behaviour, not an idealization.
* the `peg` grammar is embedded as a deterministic recursive-descent parser
  over `List Char`, with PEG semantics: greedy repetition, one-token
  backtracking over the separator in `a ** b` separated repetition, committed
  optionals, and a whole-input check at the public entry point.
* `usize` is a 64-bit machine integer; `FromStr::from_str(..).unwrap()` in the
  `digits` rule aborts the program when the digit string exceeds `usize::MAX`,
  which the model records as the `panic` outcome.
* `crate::time::Period` is not part of the given sources and is modelled from
  the spec.
-/

namespace Srt

attribute [local semireducible] Rat.add Rat.mul Rat.inv Rat.sub

/-- Result of running one grammar rule on an input suffix: success with a value
and the remaining input, rule failure (the peg engine backtracks or reports a
parse error), or a Rust process abort from `unwrap`. -/
inductive PRes (α : Type) : Type where
  | ok (val : α) (rest : List Char)
  | fail
  | panic
deriving Repr, DecidableEq

/-- Result of `SubtitleFile::from_str`: a parsed file, an error
(`could not parse subtitles`), or a Rust process abort. -/
inductive Outcome (α : Type) : Type where
  | ok (val : α)
  | err
  | panic
deriving Repr, DecidableEq

/-- Modelled from the spec: `crate::time::Period` (its source file is not among
the given sources).  A half-open time interval `[begin, end)` in seconds;
`Interval.new(begin, end)` fails unless `begin < end`; `.begin()`/`.end()`
return the endpoints; `.shift(offset)` adds the offset to both endpoints.
Seconds hold the exact rational values of the `f32` endpoints. -/
structure Period where
  pbegin : ℚ
  pend : ℚ
deriving Repr, DecidableEq

/-- Modelled from the spec: `Period::new` fails unless `begin < end`. -/
def Period.new (b e : ℚ) : Option Period :=
  if b < e then some ⟨b, e⟩ else none

/-- Modelled from the spec: `Period::shift` adds the offset to both endpoints. -/
def Period.shift (p : Period) (off : ℚ) : Period :=
  ⟨p.pbegin + off, p.pend + off⟩

/-- A single SRT-format subtitle (`struct Subtitle`). -/
structure Subtitle where
  index : ℕ
  period : Period
  lines : List String
deriving Repr, DecidableEq

/-- The contents of an SRT-format subtitle file (`struct SubtitleFile`). -/
structure SubtitleFile where
  subtitles : List Subtitle
deriving Repr, DecidableEq

/-! ### Character classes and numerals -/

/-- The byte-order mark U+FEFF. -/
def bom : Char := Char.ofNat 0xFEFF

/-- The character class `['0'..='9']` of the grammar (code points 48–57). -/
def isDigitC (c : Char) : Bool := decide (48 ≤ c.toNat ∧ c.toNat ≤ 57)

/-- The character class `[^ '\r' | '\n']` of the `line` rule. -/
def notBreak (c : Char) : Bool := !(c = '\r' ∨ c = '\n')

/-- Decimal digit character for a value below ten. -/
def digitChar : ℕ → Char
  | 0 => '0' | 1 => '1' | 2 => '2' | 3 => '3' | 4 => '4'
  | 5 => '5' | 6 => '6' | 7 => '7' | 8 => '8' | 9 => '9'
  | _ => '0'

/-- Numeric value of a digit character, as used by integer parsing. -/
def digitVal (c : Char) : ℕ := c.toNat - 48

/-- Value of a digit string, most significant first (`usize::from_str`,
ignoring overflow, which callers check separately). -/
def natOfDigits (l : List Char) : ℕ := l.foldl (fun a c => 10 * a + digitVal c) 0

/-- Decimal numeral of `n` (fuel-indexed so that it is structural; the fuel
`n + 1` always suffices).  Mirrors Rust `format!("{}", n)` for `usize`. -/
def natReprAux : ℕ → ℕ → List Char
  | 0, _ => []
  | f + 1, n => if n < 10 then [digitChar n] else natReprAux f (n / 10) ++ [digitChar (n % 10)]

/-- Decimal numeral of a natural number. -/
def natRepr (n : ℕ) : List Char := natReprAux (n + 1) n

/-- Decimal numeral of an integer (Rust `Display` of a whole-valued float,
for nonnegative values; the float `-0.0` is not distinguished). -/
def intRepr (i : ℤ) : List Char :=
  if i < 0 then '-' :: natRepr i.natAbs else natRepr i.toNat

/-- Left-pad with `'0'` to width `w` (Rust `{:0>w}` / `{:0w}` padding). -/
def padTo (w : ℕ) (l : List Char) : List Char :=
  List.replicate (w - l.length) '0' ++ l

/-! ### The `f32` value model

The times the code computes with are IEEE-754 `binary32` values.  They are
embedded by their exact rational values, and every operation the code
performs (`usize as f32` casts, `*`, `+`, the parsed decimal of
`f32::from_str` and of a float literal) goes through `rnd`, the binary32
round-to-nearest, ties-to-even function: a correctly-rounded operation
yields exactly the rounding of its exact result.  `rnd` is written for the
normal range (24-bit significands at every binade); the subnormal and
overflow thresholds (below `2^-126`, above `2^128`) are far outside every
value these rules produce. -/

/-- `⌊log2 n⌋` by structural recursion on a fuel bound (so that the kernel
can evaluate it); `log2fuel f n` is exact whenever `n ≤ f`. -/
def log2fuel : ℕ → ℕ → ℕ
  | 0, _ => 0
  | f + 1, n => if 2 ≤ n then log2fuel f (n / 2) + 1 else 0

/-- `⌊log2 n⌋` for positive `n`. -/
def nlog2 (n : ℕ) : ℕ := log2fuel n n

/-- The rational `2 ^ k` for an integer exponent, built from `ℕ` powers. -/
def pow2z (k : ℤ) : ℚ :=
  if 0 ≤ k then ((2 ^ k.toNat : ℕ) : ℚ) else 1 / ((2 ^ (-k).toNat : ℕ) : ℚ)

/-- `⌊log2 q⌋` of a positive rational: the exponent of its binade. -/
def ilog2 (q : ℚ) : ℤ :=
  if pow2z ((nlog2 q.num.toNat : ℤ) - (nlog2 q.den : ℤ)) ≤ q
  then (nlog2 q.num.toNat : ℤ) - (nlog2 q.den : ℤ)
  else (nlog2 q.num.toNat : ℤ) - (nlog2 q.den : ℤ) - 1

/-- Round to the nearest integer, ties to the even one. -/
def roundHalfEven (x : ℚ) : ℤ :=
  if x - ⌊x⌋ < 1 / 2 then ⌊x⌋
  else if 1 / 2 < x - ⌊x⌋ then ⌊x⌋ + 1
  else if 2 ∣ ⌊x⌋ then ⌊x⌋ else ⌊x⌋ + 1

/-- Round a rational to the nearest `f32` value (round to nearest, ties to
even): scale into the 24-bit significand range `[2^23, 2^24)` of the
argument's binade, round to an integer significand, and scale back. -/
def rnd (q : ℚ) : ℚ :=
  if q = 0 then 0
  else if q < 0 then -rndP (-q) else rndP q
where
  /-- `rnd` on positive arguments. -/
  rndP (q : ℚ) : ℚ :=
    (roundHalfEven (q / pow2z (ilog2 q - 23)) : ℚ) * pow2z (ilog2 q - 23)

/-- `f32` addition: the correctly rounded exact sum. -/
def fadd (x y : ℚ) : ℚ := rnd (x + y)

/-- `f32` multiplication: the correctly rounded exact product. -/
def fmul (x y : ℚ) : ℚ := rnd (x * y)

/-! ### The time formatter (`format_time`) -/

/-- Truncation toward zero, Rust `f32::trunc`. -/
def ratTrunc (q : ℚ) : ℤ := if 0 ≤ q then ⌊q⌋ else -⌊-q⌋

/-- Rust `%` on floats: remainder with the sign of the dividend,
`a - b * trunc(a / b)`. -/
def fmodQ (a b : ℚ) : ℚ := a - b * ratTrunc (a / b)

/-- Rust `{:.3}` fixed-precision rendering: exactly three fractional digits,
rounded to nearest (the model rounds half up; the code's half-to-even tie
rule is indistinguishable on the millisecond-grained values the format
carries). -/
def fixed3 (q : ℚ) : List Char :=
  if q < 0 then '-' :: fixed3Pos (-q) else fixed3Pos q
where
  /-- Nonnegative case of `fixed3`. -/
  fixed3Pos (q : ℚ) : List Char :=
    let ms : ℕ := (⌊1000 * q + 1 / 2⌋).toNat
    natRepr (ms / 1000) ++ '.' :: padTo 3 (natRepr (ms % 1000))

/-- Character image under the final `.replace(".", ",")`. -/
def commaFix (c : Char) : Char := if c = '.' then ',' else c

/-- Character-level body of `format_time`: `"{:02}:{:02}:{:0>6.3}"` over
truncated hours, truncated minutes and the remaining seconds, with the
decimal point replaced by a comma. -/
def formatTimeChars (time : ℚ) : List Char :=
  let h := ratTrunc (time / 3600)
  let rem := fmodQ time 3600
  let m := ratTrunc (rem / 60)
  let s := fmodQ rem 60
  (padTo 2 (intRepr h) ++ ':' :: padTo 2 (intRepr m) ++ ':' :: padTo 6 (fixed3 s)).map commaFix

/-- Format seconds using the standard SRT time format (`format_time`). -/
def format_time (time : ℚ) : String := ⟨formatTimeChars time⟩

/-! ### The serializer -/

/-- Rule `newline() = "\r"? "\n"`. -/
def newline (s : List Char) : Option (List Char) :=
  match s with
  | c :: r =>
    if c = '\r' then
      match r with
      | c2 :: r2 => if c2 = '\n' then some r2 else none
      | [] => none
    else if c = '\n' then some r else none
  | [] => none

/-- Greedily consume line breaks (the repetition inside `blank_lines`). -/
def blankAux (s : List Char) : List Char :=
  match s with
  | c :: r =>
    if c = '\n' then blankAux r
    else if c = '\r' then
      match r with
      | c2 :: r2 => if c2 = '\n' then blankAux r2 else s
      | [] => s
    else s
  | [] => s

/-- Rule `blank_lines() = newline()+`. -/
def blank_lines (s : List Char) : Option (List Char) :=
  match newline s with
  | none => none
  | some r => some (blankAux r)

/-- Rule `line() -> String = $([^ '\r' | '\n']+)`. -/
def line (s : List Char) : Option (String × List Char) :=
  let t := s.takeWhile notBreak
  if t = [] then none else some (⟨t⟩, s.dropWhile notBreak)

/-- Iterations of `line() ** newline()` after the first line: repeatedly
consume a separator and a line, backtracking over the final separator
whose following line fails. -/
def linesMore : ℕ → List Char → List String × List Char
  | 0, s => ([], s)
  | fuel + 1, s =>
    match newline s with
    | none => ([], s)
    | some s1 =>
      match line s1 with
      | none => ([], s)
      | some (l, s2) =>
        let (ls, s3) := linesMore fuel s2
        (l :: ls, s3)

/-- Rule `lines() = line() ** newline()` (zero or more, separated). -/
def lines (s : List Char) : List String × List Char :=
  match line s with
  | none => ([], s)
  | some (l, s1) =>
    let (ls, s2) := linesMore s.length s1
    (l :: ls, s2)

/-- Rule `digits() -> usize = $(['0'..='9']+) { from_str(..).unwrap() }`:
greedy digit run; the `unwrap` aborts when the value exceeds `usize::MAX`
(64-bit). -/
def digits (s : List Char) : PRes ℕ :=
  let t := s.takeWhile isDigitC
  if t = [] then .fail
  else
    let n := natOfDigits t
    if n < 2 ^ 64 then .ok n (s.dropWhile isDigitC) else .panic

/-- Rule `comma_float() -> f32 = $(['0'..='9']+ "," ['0'..='9']+)`: the comma
is replaced by a point and the result parsed by `f32::from_str`, which
returns the `f32` nearest the written decimal (ties to even) — the `rnd` of
its exact rational value. -/
def comma_float (s : List Char) : Option (ℚ × List Char) :=
  let ip := s.takeWhile isDigitC
  if ip = [] then none
  else
    match s.dropWhile isDigitC with
    | c :: s2 =>
      if c = ',' then
        let fp := s2.takeWhile isDigitC
        if fp = [] then none
        else some (rnd ((natOfDigits ip : ℚ) + (natOfDigits fp : ℚ) / 10 ^ fp.length),
                   s2.dropWhile isDigitC)
      else none
    | [] => none

/-- Rule `time() -> f32 = hh:digits() ":" mm:digits() ":" ss:comma_float()`,
computing `(hh as f32)*3600.0 + (mm as f32)*60.0 + ss`: the casts round to
the nearest `f32`, and each multiplication and addition is a correctly
rounded `f32` operation, evaluated left to right. -/
def time (s : List Char) : PRes ℚ :=
  match digits s with
  | .panic => .panic
  | .fail => .fail
  | .ok hh s1 =>
    match s1 with
    | c :: s2 =>
      if c = ':' then
        match digits s2 with
        | .panic => .panic
        | .fail => .fail
        | .ok mm s3 =>
          match s3 with
          | c2 :: s4 =>
            if c2 = ':' then
              match comma_float s4 with
              | none => .fail
              | some (ss, s5) =>
                .ok (fadd (fadd (fmul (rnd (hh : ℚ)) 3600) (fmul (rnd (mm : ℚ)) 60)) ss) s5
            else .fail
          | [] => .fail
      else .fail
    | [] => .fail

/-- The literal `" --> "` between the two times of a range. -/
def dropArrow : List Char → Option (List Char)
  | ' ' :: '-' :: '-' :: '>' :: ' ' :: r => some r
  | _ => none

/-- Rule `time_period() -> Period`: two times around `" --> "`; a zero-length
range has its end advanced by the `f32` addition `end += 0.001`, where the
literal `0.001` is the `f32` nearest `1/1000` and the addition rounds (for
`begin ≥ 32768` s it is a no-op); `Period::new` failure makes the rule fail
(the `invalid time period` error). -/
def time_period (s : List Char) : PRes Period :=
  match time s with
  | .panic => .panic
  | .fail => .fail
  | .ok b s1 =>
    match dropArrow s1 with
    | none => .fail
    | some s2 =>
      match time s2 with
      | .panic => .panic
      | .fail => .fail
      | .ok e0 s3 =>
        let e := if b = e0 then fadd e0 (rnd (1 / 1000)) else e0
        match Period.new b e with
        | some p => .ok p s3
        | none => .fail

/-- Rule `subtitle() = index:digits() newline() p:time_period() newline() l:lines()`. -/
def subtitle (s : List Char) : PRes Subtitle :=
  match digits s with
  | .panic => .panic
  | .fail => .fail
  | .ok idx s1 =>
    match newline s1 with
    | none => .fail
    | some s2 =>
      match time_period s2 with
      | .panic => .panic
      | .fail => .fail
      | .ok p s3 =>
        match newline s3 with
        | none => .fail
        | some s4 =>
          let (ls, s5) := lines s4
          .ok ⟨idx, p, ls⟩ s5

/-- Iterations of `subtitle() ** blank_lines()` after the first subtitle:
repeatedly consume a separator and a subtitle, backtracking over the final
separator whose following subtitle fails.  Never yields `.fail`. -/
def subsMore : ℕ → List Char → PRes (List Subtitle)
  | 0, s => .ok [] s
  | fuel + 1, s =>
    match blank_lines s with
    | none => .ok [] s
    | some s1 =>
      match subtitle s1 with
      | .panic => .panic
      | .fail => .ok [] s
      | .ok sub s2 =>
        match subsMore fuel s2 with
        | .panic => .panic
        | .fail => .fail
        | .ok subs s3 => .ok (sub :: subs) s3

/-- Rule `subtitles() = subs:subtitle() ** blank_lines()` (zero or more,
separated). -/
def subtitles (fuel : ℕ) (s : List Char) : PRes (List Subtitle) :=
  match subtitle s with
  | .panic => .panic
  | .fail => .ok [] s
  | .ok sub s1 =>
    match subsMore fuel s1 with
    | .panic => .panic
    | .fail => .fail
    | .ok subs s2 => .ok (sub :: subs) s2

/-- Rule `subtitle_file() = blank_lines()? result:subtitles() blank_lines()?`. -/
def subtitle_file (s : List Char) : PRes SubtitleFile :=
  let s0 := match blank_lines s with | none => s | some r => r
  match subtitles s.length s0 with
  | .panic => .panic
  | .fail => .fail
  | .ok subs s1 =>
    let s2 := match blank_lines s1 with | none => s1 | some r => r
    .ok ⟨subs⟩ s2

/-- Leading BOM stripping, `data.trim_start_matches("\u{FEFF}")`. -/
def stripBOM (l : List Char) : List Char := l.dropWhile (fun c => c = bom)

/-- `SubtitleFile::from_str`: strip leading BOMs, run the grammar, and require
the whole input to be consumed (the generated `peg` entry point checks for
end of input). -/
def SubtitleFile.from_str (data : String) : Outcome SubtitleFile :=
  match subtitle_file (stripBOM data.data) with
  | .panic => .panic
  | .fail => .err
  | .ok f rest => if rest = [] then .ok f else .err

/-! ### Lookup and merging -/

/-- Find the subtitle with the given index (`SubtitleFile::find`). -/
def SubtitleFile.find (f : SubtitleFile) (index : ℕ) : Option Subtitle :=
  f.subtitles.find? (fun s => s.index == index)

/-- First loop of `append_with_offset`: renumber indices sequentially from
`next`. -/
def renumberFrom (next : ℕ) : List Subtitle → List Subtitle
  | [] => []
  | sub :: rest => { sub with index := next } :: renumberFrom (next + 1) rest

/-- Second loop of `append_with_offset`: renumber indices sequentially from
`next` and shift each period by the offset. -/
def renumberShiftFrom (next : ℕ) (off : ℚ) : List Subtitle → List Subtitle
  | [] => []
  | sub :: rest =>
    { sub with index := next, period := sub.period.shift off } ::
      renumberShiftFrom (next + 1) off rest

/-- `AppendWithOffset::append_with_offset` for `SubtitleFile`: renumber the
base file from 1, renumber and time-shift the appended file with the
continuing counter, and concatenate. -/
def append_with_offset (self other : SubtitleFile) (time_offset : ℚ) : SubtitleFile :=
  ⟨renumberFrom 1 self.subtitles ++
    renumberShiftFrom (self.subtitles.length + 1) time_offset other.subtitles⟩

/-! ### Canonical form

A file is in canonical form exactly when it is the serialization of a
well-formed `SubtitleFile`: every time is a nonnegative whole number of
milliseconds that is exactly representable in `f32` — equivalently a whole
multiple of `1/8` s, since `n/1000` is dyadic iff `125 ∣ n` — and below
`2^19` s, every interval is strictly increasing, every text line is
non-empty and free of line breaks, and every index fits in `usize`.
Serializing such a file produces a leading BOM, entries separated by
exactly one blank line, and a trailing line break — the canonical shape of
the spec.  The representability bound is what makes every `f32` rounding in
the reparse exact; a canonical-looking text with any other millisecond
value is rounded by the parse and can re-serialize differently. -/

/-- Inputs that are empty or only line breaks after BOM stripping. -/
def blankOnly (l : List Char) : Prop := blankAux l = []

theorem digitChar_isDigit {n : ℕ} (h : n < 10) : isDigitC (digitChar n) = true := by
  interval_cases n <;> decide

theorem digitVal_digitChar {n : ℕ} (h : n < 10) : digitVal (digitChar n) = n := by
  interval_cases n <;> decide

theorem isDigitC_toNat {c : Char} (h : isDigitC c = true) :
    48 ≤ c.toNat ∧ c.toNat ≤ 57 := by
  simpa [isDigitC] using h

theorem isDigitC_ne_of_lt {c d : Char} (h : isDigitC c = true) (hd : d.toNat < 48) :
    c ≠ d := by
  rcases isDigitC_toNat h with ⟨h1, _⟩
  intro he; subst he; omega

theorem isDigitC_ne_colon {c : Char} (h : isDigitC c = true) : c ≠ ':' := by
  rcases isDigitC_toNat h with ⟨_, h2⟩
  intro he; subst he; revert h2; decide

theorem natOfDigits_cons (c : Char) (l : List Char) :
    natOfDigits (c :: l) = l.foldl (fun a c => 10 * a + digitVal c) (digitVal c) := by
  simp [natOfDigits]

theorem natOfDigits_append_singleton (l : List Char) (c : Char) :
    natOfDigits (l ++ [c]) = 10 * natOfDigits l + digitVal c := by
  simp [natOfDigits, List.foldl_append]

theorem natOfDigits_zero_cons (l : List Char) :
    natOfDigits ('0' :: l) = natOfDigits l := by
  have h0 : digitVal '0' = 0 := by decide
  rw [natOfDigits_cons, h0]
  rfl

theorem natOfDigits_replicate_zero (k : ℕ) (l : List Char) :
    natOfDigits (List.replicate k '0' ++ l) = natOfDigits l := by
  induction k with
  | zero => rfl
  | succ k ih => simpa [List.replicate_succ, natOfDigits_zero_cons] using ih

theorem natReprAux_digits : ∀ f n, n < f → ∀ c ∈ natReprAux f n, isDigitC c = true := by
  intro f
  induction f with
  | zero => omega
  | succ f ih =>
    intro n hn c hc
    rw [natReprAux] at hc
    by_cases h10 : n < 10
    · rw [if_pos h10] at hc
      simp at hc
      subst hc
      exact digitChar_isDigit h10
    · rw [if_neg h10] at hc
      rcases List.mem_append.mp hc with h | h
      · have hlt : n / 10 < n := Nat.div_lt_self (by omega) (by omega)
        exact ih (n / 10) (by omega) c h
      · simp at h
        subst h
        exact digitChar_isDigit (Nat.mod_lt _ (by omega))

theorem natOfDigits_natReprAux : ∀ f n, n < f → natOfDigits (natReprAux f n) = n := by
  intro f
  induction f with
  | zero => omega
  | succ f ih =>
    intro n hn
    rw [natReprAux]
    by_cases h10 : n < 10
    · rw [if_pos h10]
      simp [natOfDigits_cons, natOfDigits, digitVal_digitChar h10]
    · rw [if_neg h10]
      have hlt : n / 10 < n := Nat.div_lt_self (by omega) (by omega)
      rw [natOfDigits_append_singleton, ih (n / 10) (by omega),
        digitVal_digitChar (Nat.mod_lt _ (by omega))]
      omega

theorem natReprAux_length_le : ∀ f n k, n < f → n < 10 ^ k → 1 ≤ k →
    (natReprAux f n).length ≤ k := by
  intro f
  induction f with
  | zero => omega
  | succ f ih =>
    intro n k hn hk h1
    rw [natReprAux]
    by_cases h10 : n < 10
    · rw [if_pos h10]; simpa using h1
    · rw [if_neg h10]
      have hlt : n / 10 < n := Nat.div_lt_self (by omega) (by omega)
      have hk2 : 2 ≤ k := by
        by_contra hcon
        have : k = 1 := by omega
        subst this
        simp at hk
        omega
      have hdiv : n / 10 < 10 ^ (k - 1) := by
        rw [Nat.div_lt_iff_lt_mul (by omega)]
        calc n < 10 ^ k := hk
        _ = 10 ^ (k - 1) * 10 := by
            rw [← pow_succ]
            congr 1
            omega
      have := ih (n / 10) (k - 1) (by omega) hdiv (by omega)
      simp only [List.length_append, List.length_cons, List.length_nil]
      omega

theorem natRepr_digits (n : ℕ) : ∀ c ∈ natRepr n, isDigitC c = true :=
  natReprAux_digits (n + 1) n (by omega)

theorem natOfDigits_natRepr (n : ℕ) : natOfDigits (natRepr n) = n :=
  natOfDigits_natReprAux (n + 1) n (by omega)

theorem natRepr_length_le {n k : ℕ} (hk : n < 10 ^ k) (h1 : 1 ≤ k) :
    (natRepr n).length ≤ k :=
  natReprAux_length_le (n + 1) n k (by omega) hk h1

theorem natOfDigits_padTo (w : ℕ) (l : List Char) :
    natOfDigits (padTo w l) = natOfDigits l :=
  natOfDigits_replicate_zero _ l

theorem padTo_length (w : ℕ) (l : List Char) :
    (padTo w l).length = max w l.length := by
  simp [padTo]
  omega

theorem renumberFrom_length (k : ℕ) (l : List Subtitle) :
    (renumberFrom k l).length = l.length := by
  induction l generalizing k with
  | nil => rfl
  | cons a l ih => simp [renumberFrom, ih]

theorem renumberFrom_map_index (k : ℕ) (l : List Subtitle) :
    (renumberFrom k l).map (fun s => s.index) = List.range' k l.length := by
  induction l generalizing k with
  | nil => rfl
  | cons a l ih => simp [renumberFrom, ih, List.range'_succ]

theorem renumberFrom_map_pl (k : ℕ) (l : List Subtitle) :
    (renumberFrom k l).map (fun s => (s.period, s.lines)) =
      l.map (fun s => (s.period, s.lines)) := by
  induction l generalizing k with
  | nil => rfl
  | cons a l ih => simp [renumberFrom, ih]

theorem renumberShiftFrom_length (k : ℕ) (t : ℚ) (l : List Subtitle) :
    (renumberShiftFrom k t l).length = l.length := by
  induction l generalizing k with
  | nil => rfl
  | cons a l ih => simp [renumberShiftFrom, ih]

theorem renumberShiftFrom_map_index (k : ℕ) (t : ℚ) (l : List Subtitle) :
    (renumberShiftFrom k t l).map (fun s => s.index) = List.range' k l.length := by
  induction l generalizing k with
  | nil => rfl
  | cons a l ih => simp [renumberShiftFrom, ih, List.range'_succ]

theorem renumberShiftFrom_map_lines (k : ℕ) (t : ℚ) (l : List Subtitle) :
    (renumberShiftFrom k t l).map (fun s => s.lines) = l.map (fun s => s.lines) := by
  induction l generalizing k with
  | nil => rfl
  | cons a l ih => simp [renumberShiftFrom, ih]

theorem renumberShiftFrom_map_ends (k : ℕ) (t : ℚ) (l : List Subtitle) :
    (renumberShiftFrom k t l).map (fun s => (s.period.pbegin, s.period.pend)) =
      l.map (fun s => (s.period.pbegin + t, s.period.pend + t)) := by
  induction l generalizing k with
  | nil => rfl
  | cons a l ih => simp [renumberShiftFrom, Period.shift, ih]

theorem renumberShiftFrom_map_dur (k : ℕ) (t : ℚ) (l : List Subtitle) :
    (renumberShiftFrom k t l).map (fun s => s.period.pend - s.period.pbegin) =
      l.map (fun s => s.period.pend - s.period.pbegin) := by
  induction l generalizing k with
  | nil => rfl
  | cons a l ih =>
    simp only [renumberShiftFrom, List.map_cons, Period.shift, ih]
    congr 1
    ring

theorem append_take (A B : SubtitleFile) (t : ℚ) :
    (append_with_offset A B t).subtitles.take A.subtitles.length =
      renumberFrom 1 A.subtitles := by
  rw [append_with_offset]
  rw [show A.subtitles.length = (renumberFrom 1 A.subtitles).length from
    (renumberFrom_length 1 A.subtitles).symm]
  exact List.take_left _ _

theorem append_drop (A B : SubtitleFile) (t : ℚ) :
    (append_with_offset A B t).subtitles.drop A.subtitles.length =
      renumberShiftFrom (A.subtitles.length + 1) t B.subtitles := by
  rw [append_with_offset]
  rw [show A.subtitles.length = (renumberFrom 1 A.subtitles).length from
    (renumberFrom_length 1 A.subtitles).symm]
  exact List.drop_left _ _

/-- C3: `append_with_offset` produces exactly `n + m` entries, indexed
`1..n+m` in order, with the base file's intervals unchanged, the appended
file's intervals shifted by exactly `t` at both endpoints, and durations
preserved.  The operation is a total function, so it never fails. -/
theorem append_with_offset_spec (A B : SubtitleFile) (t : ℚ) :
    (append_with_offset A B t).subtitles.length =
        A.subtitles.length + B.subtitles.length ∧
    (append_with_offset A B t).subtitles.map (fun s => s.index) =
        List.range' 1 (A.subtitles.length + B.subtitles.length) ∧
    ((append_with_offset A B t).subtitles.take A.subtitles.length).map
        (fun s => (s.period.pbegin, s.period.pend)) =
      A.subtitles.map (fun s => (s.period.pbegin, s.period.pend)) ∧
    ((append_with_offset A B t).subtitles.drop A.subtitles.length).map
        (fun s => (s.period.pbegin, s.period.pend)) =
      B.subtitles.map (fun s => (s.period.pbegin + t, s.period.pend + t)) ∧
    ((append_with_offset A B t).subtitles.drop A.subtitles.length).map
        (fun s => s.period.pend - s.period.pbegin) =
      B.subtitles.map (fun s => s.period.pend - s.period.pbegin) := by
  refine ⟨?_, ?_, ?_, ?_, ?_⟩
  · simp [append_with_offset, renumberFrom_length, renumberShiftFrom_length]
  · rw [append_with_offset]
    simp only [List.map_append, renumberFrom_map_index, renumberShiftFrom_map_index]
    have h := List.range'_append 1 A.subtitles.length B.subtitles.length 1
    rw [one_mul] at h
    rw [Nat.add_comm A.subtitles.length 1,
      Nat.add_comm A.subtitles.length B.subtitles.length]
    exact h
  · rw [append_take]
    have h1 := congrArg (List.map (fun p : Period × List String => (p.1.pbegin, p.1.pend)))
      (renumberFrom_map_pl 1 A.subtitles)
    simpa [Function.comp] using h1
  · rw [append_drop]
    exact renumberShiftFrom_map_ends _ t B.subtitles
  · rw [append_drop]
    exact renumberShiftFrom_map_dur _ t B.subtitles

/-- C10 (frame effect): `append_with_offset` leaves the base file's periods
and lines exactly as they were (only indices change), leaves the appended
file's lines unchanged (only index and period change), and preserves the
relative order of the subtitles of each input. -/
theorem append_with_offset_frame (A B : SubtitleFile) (t : ℚ) :
    ((append_with_offset A B t).subtitles.take A.subtitles.length).map
        (fun s => (s.period, s.lines)) =
      A.subtitles.map (fun s => (s.period, s.lines)) ∧
    ((append_with_offset A B t).subtitles.drop A.subtitles.length).map
        (fun s => s.lines) =
      B.subtitles.map (fun s => s.lines) := by
  constructor
  · rw [append_take]
    exact renumberFrom_map_pl 1 A.subtitles
  · rw [append_drop]
    exact renumberShiftFrom_map_lines _ t B.subtitles

/-- C9: `find` returns the first subtitle (in sequence order) whose index
equals the argument, and `none` when no subtitle matches; later duplicates
are ignored. -/
theorem find_first (f : SubtitleFile) (i : ℕ) :
    (SubtitleFile.find f i = none → ∀ s ∈ f.subtitles, s.index ≠ i) ∧
    (∀ s, SubtitleFile.find f i = some s →
      s.index = i ∧ ∃ l1 l2, f.subtitles = l1 ++ s :: l2 ∧ ∀ x ∈ l1, x.index ≠ i) := by
  obtain ⟨l⟩ := f
  rw [SubtitleFile.find]
  constructor
  · intro h s hs
    have := List.find?_eq_none.mp h s hs
    simpa using this
  · induction l with
    | nil => intro s h; simp at h
    | cons a l ih =>
      intro s h
      by_cases ha : a.index = i
      · rw [List.find?_cons_of_pos _ (by simpa using ha)] at h
        obtain rfl : a = s := by simpa using h
        exact ⟨ha, [], l, rfl, by simp⟩
      · rw [List.find?_cons_of_neg _ (by simpa using ha)] at h
        obtain ⟨hs, l1, l2, hsplit, hl1⟩ := ih s h
        refine ⟨hs, a :: l1, l2, by simpa using hsplit, ?_⟩
        intro x hx
        rcases List.mem_cons.mp hx with rfl | hx
        · exact ha
        · exact hl1 x hx

theorem find_first_witness :
    (⟨7, ⟨1, 2⟩, ["a"]⟩ : Subtitle).index = 7 ∧
    ∃ l1 l2,
      (⟨[⟨5, ⟨0, 1⟩, []⟩, ⟨7, ⟨1, 2⟩, ["a"]⟩, ⟨7, ⟨2, 3⟩, ["b"]⟩]⟩ :
          SubtitleFile).subtitles = l1 ++ (⟨7, ⟨1, 2⟩, ["a"]⟩ : Subtitle) :: l2 ∧
        ∀ x ∈ l1, x.index ≠ 7 :=
  (find_first ⟨[⟨5, ⟨0, 1⟩, []⟩, ⟨7, ⟨1, 2⟩, ["a"]⟩, ⟨7, ⟨2, 3⟩, ["b"]⟩]⟩ 7).2
    ⟨7, ⟨1, 2⟩, ["a"]⟩ (by decide)

/-! ### Claims about the time-range rules (C4, C5) -/

set_option maxRecDepth 40000 in
/-- C4 (counterexample): the end of a zero-width range is not always advanced
by `0.001` before the interval is constructed.  At `09:30:00,000` (34200 s)
the `f32` addition `end += 0.001` rounds back to `end` — the half-ulp there
is `0.001953125 > 0.001` — so `Period::new` rejects the still-empty interval
and the parse of the whole file errors instead of producing a corrected
subtitle. -/
theorem zero_width_correction_fails_large :
    SubtitleFile.from_str "1\n09:30:00,000 --> 09:30:00,000\nA\n" = .err := by
  decide

/-- C4 (amended): when the two times of a range parse to equal `f32` values,
the rule advances the end by the `f32` addition of the `f32` constant nearest
`0.001`, and constructs the interval precisely when that addition moved the
end; on the claim's concrete range `00:00:01,000 --> 00:00:01,000` the
addition does move the end, yielding begin `1` and end `8396997/8388608` —
the `f32` value nearest `1.001`, which the code's own test writes as the
float literal `1.001`. -/
theorem zero_duration_correction (s s1 s2 s3 : List Char) (b e0 : ℚ)
    (h1 : time s = .ok b s1) (h2 : dropArrow s1 = some s2)
    (h3 : time s2 = .ok e0 s3) (heq : b = e0) :
    (b < fadd b (rnd (1 / 1000)) →
      time_period s = .ok ⟨b, fadd b (rnd (1 / 1000))⟩ s3) ∧
    (¬b < fadd b (rnd (1 / 1000)) → time_period s = .fail) ∧
    time_period (String.data "00:00:01,000 --> 00:00:01,000") =
      .ok ⟨1, 8396997 / 8388608⟩ [] := by
  refine ⟨?_, ?_, by decide⟩
  · intro hlt
    subst heq
    simp only [time_period, h1, h2, h3, if_true]
    rw [Period.new, if_pos hlt]
  · intro hnlt
    subst heq
    simp only [time_period, h1, h2, h3, if_true]
    rw [Period.new, if_neg hnlt]

theorem zero_duration_correction_witness :
    time_period (String.data "00:00:01,000 --> 00:00:01,000") =
      .ok ⟨1, fadd 1 (rnd (1 / 1000))⟩ (String.data "") :=
  (zero_duration_correction (String.data "00:00:01,000 --> 00:00:01,000")
    (String.data " --> 00:00:01,000") (String.data "00:00:01,000") (String.data "")
    1 1 (by decide) (by decide) (by decide) rfl).1 (by decide)

set_option maxRecDepth 40000 in
/-- C5 (counterexample): an input containing a range whose written end is
strictly below its written begin can parse successfully: in
`05:00:00,002 --> 05:00:00,001` both times round to the same `f32` value
`9216001/512` (= 18000.001953125), the zero-width fix then applies and the
file parses to a subtitle ending at `4608001/256` (= 18000.00390625). -/
theorem decreasing_text_parses :
    SubtitleFile.from_str "1\n05:00:00,002 --> 05:00:00,001\nHi\n" =
      .ok ⟨[⟨1, ⟨9216001 / 512, 4608001 / 256⟩, ["Hi"]⟩]⟩ := by
  decide

/-- C5 (amended): a time range whose parsed `f32` end value is strictly less
than its parsed begin value makes the `time_period` rule fail (the `invalid
time period` error) — the interval is never swapped or clamped — and a file
containing such an entry fails to parse, returning no `SubtitleFile`.  At
`f32` precision this is a property of the parsed values, not of the written
digits: distinct written times can round to the same value and escape the
check. -/
theorem invalid_period_rejected (s s1 s2 s3 : List Char) (b e : ℚ)
    (h1 : time s = .ok b s1) (h2 : dropArrow s1 = some s2)
    (h3 : time s2 = .ok e s3) (hlt : e < b) :
    time_period s = .fail ∧
    SubtitleFile.from_str "1\n00:00:05,000 --> 00:00:04,000\nHi\n" = .err := by
  constructor
  · have hne : ¬b = e := by
      intro h
      subst h
      exact absurd hlt (lt_irrefl b)
    have hnlt : ¬b < e := lt_asymm hlt
    simp [time_period, h1, h2, h3, Period.new, hne, hnlt]
  · decide

theorem invalid_period_rejected_witness :
    time_period (String.data "00:00:05,000 --> 00:00:04,000") = .fail ∧
    SubtitleFile.from_str "1\n00:00:05,000 --> 00:00:04,000\nHi\n" = .err :=
  invalid_period_rejected (String.data "00:00:05,000 --> 00:00:04,000")
    (String.data " --> 00:00:04,000") (String.data "00:00:04,000") (String.data "")
    5 4 (by decide) (by decide) (by decide) (by norm_num)

/-! ### Claim C2: the `digits` rule aborts on `usize` overflow -/

/-- C2 (code bug): parsing an entry whose index digit sequence is
`18446744073709551616` (one more than `usize::MAX`) makes
`usize::from_str(..).unwrap()` in the `digits` rule abort the program
instead of returning a parse error, contradicting the claimed totality. -/
theorem index_overflow_aborts :
    SubtitleFile.from_str
      "18446744073709551616\n00:00:00,000 --> 00:00:01,000\nA\n" = .panic ∧
    SubtitleFile.from_str
      "18446744073709551615\n00:00:00,000 --> 00:00:01,000\nA\n" =
      .ok ⟨[⟨18446744073709551615, ⟨0, 1⟩, ["A"]⟩]⟩ := by
  constructor
  · decide
  · decide


/-! ### Claims C6 and C7: the repetitions are zero-or-more -/

theorem line_wf {s rest : List Char} {l : String} (h : line s = some (l, rest)) :
    l.data ≠ [] ∧ ∀ c ∈ l.data, notBreak c = true := by
  simp only [line] at h
  split at h
  · exact Option.noConfusion h
  · rename_i hne
    cases h
    exact ⟨hne, fun c hc => List.mem_takeWhile_imp hc⟩

theorem linesMore_wf : ∀ (fuel : ℕ) (s : List Char),
    ∀ l ∈ (linesMore fuel s).1, l.data ≠ [] ∧ ∀ c ∈ l.data, notBreak c = true := by
  intro fuel
  induction fuel with
  | zero => intro s l hl; simp [linesMore] at hl
  | succ fuel ih =>
    intro s l hl
    rw [linesMore] at hl
    cases hn : newline s with
    | none => simp [hn] at hl
    | some s1 =>
      simp only [hn] at hl
      cases hline : line s1 with
      | none => simp [hline] at hl
      | some v =>
        obtain ⟨l0, s2⟩ := v
        simp only [hline] at hl
        rcases List.mem_cons.mp hl with rfl | hmem
        · exact line_wf hline
        · exact ih s2 l hmem

theorem lines_wf (s : List Char) :
    ∀ l ∈ (lines s).1, l.data ≠ [] ∧ ∀ c ∈ l.data, notBreak c = true := by
  intro l hl
  rw [lines] at hl
  cases hline : line s with
  | none => simp [hline] at hl
  | some v =>
    obtain ⟨l0, s1⟩ := v
    simp only [hline] at hl
    rcases List.mem_cons.mp hl with rfl | hmem
    · exact line_wf hline
    · exact linesMore_wf s.length s1 l hmem



theorem subtitle_wf {s rest : List Char} {sub : Subtitle} (h : subtitle s = .ok sub rest) :
    ∀ l ∈ sub.lines, l.data ≠ [] ∧ ∀ c ∈ l.data, notBreak c = true := by
  rw [subtitle] at h
  cases hd : digits s with
  | panic => simp only [hd] at h; exact PRes.noConfusion h
  | fail => simp only [hd] at h; exact PRes.noConfusion h
  | ok idx s1 =>
    simp only [hd] at h
    cases hn1 : newline s1 with
    | none => simp only [hn1] at h; exact PRes.noConfusion h
    | some s2 =>
      simp only [hn1] at h
      cases hp : time_period s2 with
      | panic => simp only [hp] at h; exact PRes.noConfusion h
      | fail => simp only [hp] at h; exact PRes.noConfusion h
      | ok p s3 =>
        simp only [hp] at h
        cases hn2 : newline s3 with
        | none => simp only [hn2] at h; exact PRes.noConfusion h
        | some s4 =>
          simp only [hn2] at h
          cases hls : lines s4 with
          | mk ls s5 =>
            simp only [hls] at h
            cases h
            intro l hl
            refine lines_wf s4 l ?_
            rw [hls]
            exact hl

theorem subsMore_wf : ∀ (fuel : ℕ) (s rest : List Char) (subs : List Subtitle),
    subsMore fuel s = .ok subs rest →
    ∀ sub ∈ subs, ∀ l ∈ sub.lines, l.data ≠ [] ∧ ∀ c ∈ l.data, notBreak c = true := by
  intro fuel
  induction fuel with
  | zero =>
    intro s rest subs h sub hsub
    rw [subsMore] at h
    cases h
    simp at hsub
  | succ fuel ih =>
    intro s rest subs h sub hsub
    rw [subsMore] at h
    cases hb : blank_lines s with
    | none =>
      simp only [hb] at h
      cases h
      simp at hsub
    | some s1 =>
      simp only [hb] at h
      cases hs0 : subtitle s1 with
      | panic => simp only [hs0] at h; exact PRes.noConfusion h
      | fail =>
        simp only [hs0] at h
        cases h
        simp at hsub
      | ok sub0 s2 =>
        simp only [hs0] at h
        cases hm : subsMore fuel s2 with
        | panic => simp only [hm] at h; exact PRes.noConfusion h
        | fail => simp only [hm] at h; exact PRes.noConfusion h
        | ok subs0 s3 =>
          simp only [hm] at h
          cases h
          rcases List.mem_cons.mp hsub with rfl | hmem
          · exact subtitle_wf hs0
          · exact ih s2 _ subs0 hm sub hmem

theorem subtitles_wf {fuel : ℕ} {s rest : List Char} {subs : List Subtitle}
    (h : subtitles fuel s = .ok subs rest) :
    ∀ sub ∈ subs, ∀ l ∈ sub.lines, l.data ≠ [] ∧ ∀ c ∈ l.data, notBreak c = true := by
  intro sub hsub
  rw [subtitles] at h
  cases hs0 : subtitle s with
  | panic => simp only [hs0] at h; exact PRes.noConfusion h
  | fail =>
    simp only [hs0] at h
    cases h
    simp at hsub
  | ok sub0 s1 =>
    simp only [hs0] at h
    cases hm : subsMore fuel s1 with
    | panic => simp only [hm] at h; exact PRes.noConfusion h
    | fail => simp only [hm] at h; exact PRes.noConfusion h
    | ok subs0 s2 =>
      simp only [hm] at h
      cases h
      rcases List.mem_cons.mp hsub with rfl | hmem
      · exact subtitle_wf hs0
      · exact subsMore_wf fuel s1 _ subs0 hm sub hmem

theorem subtitle_file_wf {s rest : List Char} {f : SubtitleFile}
    (h : subtitle_file s = .ok f rest) :
    ∀ sub ∈ f.subtitles, ∀ l ∈ sub.lines, l.data ≠ [] ∧ ∀ c ∈ l.data, notBreak c = true := by
  rw [subtitle_file] at h
  cases hsubs : subtitles s.length (match blank_lines s with | none => s | some r => r) with
  | panic => simp only [hsubs] at h; exact PRes.noConfusion h
  | fail => simp only [hsubs] at h; exact PRes.noConfusion h
  | ok subs s1 =>
    simp only [hsubs] at h
    cases h
    exact subtitles_wf hsubs

/-- C6 counterexample: an entry with no text line parses successfully into a
subtitle whose `lines` sequence is empty — the `lines` rule is a zero-or-more
repetition, so a successful parse can produce a subtitle with no lines. -/
theorem empty_lines_subtitle_parses :
    SubtitleFile.from_str "1\n00:00:01,000 --> 00:00:02,000\n" =
      .ok ⟨[⟨1, ⟨1, 2⟩, []⟩]⟩ := by
  decide

/-- C6 amended: the `lines` sequence of a parsed subtitle may be empty, but
every line that is present is a non-empty string containing no CR or LF. -/
theorem parsed_lines_wf (s : String) (f : SubtitleFile)
    (h : SubtitleFile.from_str s = .ok f) :
    ∀ sub ∈ f.subtitles, ∀ l ∈ sub.lines, l.data ≠ [] ∧ ∀ c ∈ l.data, notBreak c = true := by
  rw [SubtitleFile.from_str] at h
  cases hfile : subtitle_file (stripBOM s.data) with
  | panic => simp only [hfile] at h; exact Outcome.noConfusion h
  | fail => simp only [hfile] at h; exact Outcome.noConfusion h
  | ok f0 rest =>
    simp only [hfile] at h
    split at h
    · cases h
      exact subtitle_file_wf hfile
    · exact Outcome.noConfusion h

theorem parsed_lines_wf_witness : ("A b" : String).data ≠ [] :=
  (parsed_lines_wf "16\n00:00:01,000 --> 00:00:02,000\nA b\nc\n"
    ⟨[⟨16, ⟨1, 2⟩, ["A b", "c"]⟩]⟩ (by decide)
    ⟨16, ⟨1, 2⟩, ["A b", "c"]⟩ (by decide) "A b" (by decide)).1

theorem blank_lines_of_blankOnly {l : List Char} (hb : blankOnly l) (hne : l ≠ []) :
    blank_lines l = some [] := by
  rw [blankOnly] at hb
  match l, hne with
  | c :: r, _ =>
    rw [blankAux.eq_def] at hb
    rw [blank_lines, newline.eq_def]
    simp only at hb ⊢
    by_cases hcn : c = '\n'
    · subst hcn
      rw [if_pos rfl] at hb
      rw [if_neg (by decide), if_pos rfl]
      simp only [hb]
    · by_cases hcr : c = '\r'
      · subst hcr
        rw [if_neg (by decide), if_pos rfl] at hb
        rw [if_pos rfl]
        match r, hb with
        | c2 :: r2, hb =>
          simp only at hb ⊢
          by_cases hc2 : c2 = '\n'
          · subst hc2
            rw [if_pos rfl] at hb ⊢
            simp only [hb]
          · rw [if_neg hc2] at hb
            exact absurd hb (by simp)
      · rw [if_neg hcn, if_neg hcr] at hb
        exact absurd hb (by simp)

/-- C7 counterexample: the empty input parses successfully into a
`SubtitleFile` with zero subtitles — the `subtitles` rule is a zero-or-more
repetition, so a parseable file need not contain a subtitle. -/
theorem empty_input_parses : SubtitleFile.from_str "" = .ok ⟨[]⟩ := by
  decide

/-- C7 amended: an input that is empty or consists only of blank lines after
BOM stripping parses successfully into a `SubtitleFile` with zero subtitles
(rather than failing). -/
theorem blank_input_parses_empty (s : String) (hb : blankOnly (stripBOM s.data)) :
    SubtitleFile.from_str s = .ok ⟨[]⟩ := by
  have hsubsnil : ∀ fuel, subtitles fuel ([] : List Char) = .ok [] [] := fun _ => rfl
  have hfile : subtitle_file (stripBOM s.data) = .ok ⟨[]⟩ [] := by
    by_cases hne : stripBOM s.data = []
    · rw [hne]
      rfl
    · have hbl := blank_lines_of_blankOnly hb hne
      rw [subtitle_file]
      simp only [hbl, hsubsnil]
      rfl
  rw [SubtitleFile.from_str, hfile]
  rfl

theorem blank_input_parses_empty_witness :
    SubtitleFile.from_str "\n\r\n\n" = .ok ⟨[]⟩ :=
  blank_input_parses_empty "\n\r\n\n" (by rw [blankOnly]; decide)


/-! ### The time formatter: decomposition and claim C8 -/

theorem ratTrunc_of_nonneg {q : ℚ} (h : 0 ≤ q) : ratTrunc q = ⌊q⌋ := if_pos h

theorem fmodQ_eq_sub {a b : ℚ} (ha : 0 ≤ a) (hb : 0 < b) :
    fmodQ a b = a - b * ⌊a / b⌋ := by
  rw [fmodQ, ratTrunc_of_nonneg (div_nonneg ha hb.le)]

theorem fmodQ_eq_fract {a b : ℚ} (ha : 0 ≤ a) (hb : 0 < b) :
    fmodQ a b = b * Int.fract (a / b) := by
  rw [fmodQ_eq_sub ha hb, Int.fract]
  field_simp

theorem fmodQ_nonneg {a b : ℚ} (ha : 0 ≤ a) (hb : 0 < b) : 0 ≤ fmodQ a b := by
  rw [fmodQ_eq_fract ha hb]
  exact mul_nonneg hb.le (Int.fract_nonneg _)

theorem fmodQ_lt {a b : ℚ} (ha : 0 ≤ a) (hb : 0 < b) : fmodQ a b < b := by
  rw [fmodQ_eq_fract ha hb]
  calc b * Int.fract (a / b) < b * 1 :=
        (mul_lt_mul_left hb).mpr (Int.fract_lt_one _)
  _ = b := mul_one b

theorem commaFix_digit {c : Char} (h : isDigitC c = true) : commaFix c = c := by
  rw [commaFix, if_neg]
  exact isDigitC_ne_of_lt h (by decide)

theorem map_commaFix_digits {l : List Char} (h : ∀ c ∈ l, isDigitC c = true) :
    l.map commaFix = l := by
  induction l with
  | nil => rfl
  | cons a l ih =>
    rw [List.map_cons, commaFix_digit (h a (by simp)), ih fun c hc => h c (by simp [hc])]

theorem map_commaFix_padTo (w : ℕ) (l : List Char) :
    (padTo w l).map commaFix = padTo w (l.map commaFix) := by
  have h0 : commaFix '0' = '0' := by decide
  simp only [padTo, List.map_append, List.map_replicate, List.length_map, h0]

theorem natRepr_map_commaFix (n : ℕ) : (natRepr n).map commaFix = natRepr n :=
  map_commaFix_digits (natRepr_digits n)

/-- Unfolding of `formatTimeChars` for nonnegative time: zero-padded numerals
for truncated hours, truncated minutes, and the rounded milliseconds, with the
comma in place. -/
theorem formatTimeChars_decomp {t : ℚ} (ht : 0 ≤ t) :
    formatTimeChars t =
      padTo 2 (natRepr (⌊t / 3600⌋).toNat) ++ ':' ::
      padTo 2 (natRepr (⌊fmodQ t 3600 / 60⌋).toNat) ++ ':' ::
      padTo 6 (natRepr ((⌊1000 * fmodQ (fmodQ t 3600) 60 + 1 / 2⌋).toNat / 1000) ++ ',' ::
        padTo 3 (natRepr ((⌊1000 * fmodQ (fmodQ t 3600) 60 + 1 / 2⌋).toNat % 1000))) := by
  have hrem0 : 0 ≤ fmodQ t 3600 := fmodQ_nonneg ht (by norm_num)
  have hs0 : 0 ≤ fmodQ (fmodQ t 3600) 60 := fmodQ_nonneg hrem0 (by norm_num)
  have hh0 : 0 ≤ ⌊t / 3600⌋ := Int.floor_nonneg.mpr (by positivity)
  have hm0 : 0 ≤ ⌊fmodQ t 3600 / 60⌋ := Int.floor_nonneg.mpr (by positivity)
  simp only [formatTimeChars, ratTrunc_of_nonneg (show (0:ℚ) ≤ t / 3600 by positivity),
    ratTrunc_of_nonneg (show (0:ℚ) ≤ fmodQ t 3600 / 60 by positivity)]
  rw [intRepr, if_neg (not_lt.mpr hh0), intRepr, if_neg (not_lt.mpr hm0)]
  rw [fixed3, if_neg (not_lt.mpr hs0)]
  simp only [fixed3.fixed3Pos]
  have hcolon : commaFix ':' = ':' := by decide
  have hdot : commaFix '.' = ',' := by decide
  simp only [List.map_append, List.map_cons, map_commaFix_padTo, natRepr_map_commaFix,
    hcolon, hdot]

theorem floor_minutes_lt {t : ℚ} (ht : 0 ≤ t) : ⌊fmodQ t 3600 / 60⌋ < 60 := by
  have hlt : fmodQ t 3600 < 3600 := fmodQ_lt ht (by norm_num)
  rw [Int.floor_lt]
  push_cast
  linarith

theorem ms_le {t : ℚ} (ht : 0 ≤ t) :
    (⌊1000 * fmodQ (fmodQ t 3600) 60 + 1 / 2⌋).toNat ≤ 60000 := by
  have hlt : fmodQ (fmodQ t 3600) 60 < 60 :=
    fmodQ_lt (fmodQ_nonneg ht (by norm_num)) (by norm_num)
  have h2 : ⌊1000 * fmodQ (fmodQ t 3600) 60 + 1 / 2⌋ < 60001 := by
    rw [Int.floor_lt]
    push_cast
    linarith
  omega

theorem padTo6_split {ip fr : List Char} (hip : ip.length ≤ 2) (hfr : fr.length = 3) :
    padTo 6 (ip ++ ',' :: fr) = padTo 2 ip ++ ',' :: fr := by
  rw [padTo, padTo]
  have hlen : (ip ++ ',' :: fr).length = ip.length + 4 := by simp [hfr]
  rw [hlen]
  have h62 : 6 - (ip.length + 4) = 2 - ip.length := by omega
  rw [h62, List.append_assoc]

/-- C8: `format_time` renders a second count as `HH:MM:SS,mmm`: truncated
hours (at least two digits, zero-padded), truncated minutes (exactly two
digits), seconds zero-padded to width six with exactly three fractional
digits; and the two concrete values of the spec. -/
theorem format_time_spec :
    format_time (7363 / 2) = "01:01:21,500" ∧
    format_time 0 = "00:00:00,000" ∧
    ∀ t : ℚ, 0 ≤ t →
      ∃ hh mm ip fr : List Char,
        formatTimeChars t = hh ++ ':' :: mm ++ ':' :: (ip ++ ',' :: fr) ∧
        2 ≤ hh.length ∧ mm.length = 2 ∧ ip.length = 2 ∧ fr.length = 3 ∧
        natOfDigits hh = (⌊t / 3600⌋).toNat ∧
        natOfDigits mm = (⌊fmodQ t 3600 / 60⌋).toNat ∧
        natOfDigits ip * 1000 + natOfDigits fr =
          (⌊1000 * fmodQ (fmodQ t 3600) 60 + 1 / 2⌋).toNat := by
  refine ⟨by decide, by decide, ?_⟩
  intro t ht
  set ms : ℕ := (⌊1000 * fmodQ (fmodQ t 3600) 60 + 1 / 2⌋).toNat with hms
  have hmslen : (natRepr (ms / 1000)).length ≤ 2 := by
    apply natRepr_length_le _ (by norm_num)
    have := ms_le ht
    omega
  have hfrlen : (natRepr (ms % 1000)).length ≤ 3 := by
    apply natRepr_length_le _ (by norm_num)
    calc ms % 1000 < 1000 := Nat.mod_lt _ (by norm_num)
    _ ≤ 10 ^ 3 := by norm_num
  have hmmlen : (natRepr (⌊fmodQ t 3600 / 60⌋).toNat).length ≤ 2 := by
    apply natRepr_length_le _ (by norm_num)
    have h1 := floor_minutes_lt ht
    have h2 : (⌊fmodQ t 3600 / 60⌋).toNat < 60 := by omega
    omega
  refine ⟨padTo 2 (natRepr (⌊t / 3600⌋).toNat),
    padTo 2 (natRepr (⌊fmodQ t 3600 / 60⌋).toNat),
    padTo 2 (natRepr (ms / 1000)), padTo 3 (natRepr (ms % 1000)),
    ?_, ?_, ?_, ?_, ?_, ?_, ?_, ?_⟩
  · rw [formatTimeChars_decomp ht, ← hms,
      padTo6_split hmslen (by rw [padTo_length]; omega)]
  · rw [padTo_length]; omega
  · rw [padTo_length]; omega
  · rw [padTo_length]; omega
  · rw [padTo_length]; omega
  · rw [natOfDigits_padTo, natOfDigits_natRepr]
  · rw [natOfDigits_padTo, natOfDigits_natRepr]
  · rw [natOfDigits_padTo, natOfDigits_natRepr, natOfDigits_padTo, natOfDigits_natRepr]
    omega

theorem format_time_spec_witness :
    ∃ hh mm ip fr : List Char,
      formatTimeChars (7363 / 2) = hh ++ ':' :: mm ++ ':' :: (ip ++ ',' :: fr) ∧
      2 ≤ hh.length ∧ mm.length = 2 ∧ ip.length = 2 ∧ fr.length = 3 ∧
      natOfDigits hh = (⌊(7363 : ℚ) / 2 / 3600⌋).toNat ∧
      natOfDigits mm = (⌊fmodQ (7363 / 2) 3600 / 60⌋).toNat ∧
      natOfDigits ip * 1000 + natOfDigits fr =
        (⌊1000 * fmodQ (fmodQ (7363 / 2) 3600) 60 + 1 / 2⌋).toNat :=
  format_time_spec.2.2 (7363 / 2) (by norm_num)


/-! ### Round trip, part 1: reparsing a formatted time -/

end Srt
